import Mathlib

/-!
ProjectTree front end: `renderTree` and `fetchTree`.

A verification development for `src/frontend/script.js`: the recursive text
renderer `renderTree` and the request/response/render flow `fetchTree`.

The development has three layers.

* `renderTree` on tree values (`TreeNode`): the renderer on the finite trees
  that `JSON.parse` produces.
* `renderTreeOnHeap`: the same source function on an explicit object heap,
  with the state threaded through every step, used to state that the call
  leaves the node and every other piece of state as it found them.
* `fetchTree`: the promise chain, as explicit state passing over the page
  (the two elements the script touches) with a log of the effects performed.
-/

/-! ## Strings -/

/-- JavaScript `String.prototype.repeat`: `n` copies of `s`, concatenated. -/
def strRepeat (s : String) : Nat → String
  | 0 => ""
  | n + 1 => s ++ strRepeat s n

/-! ## The data model -/

/-- A parsed node `{ name, is_dir, children? }`. `children = none` is a node
without a `children` field; `some []` is a node with an empty array (which
JavaScript treats as truthy, so the loop runs over zero children). -/
inductive TreeNode where
  | mk (name : String) (is_dir : Bool) (children : Option (List TreeNode)) : TreeNode

namespace TreeNode

/-- Field `name`. -/
def name : TreeNode → String
  | .mk n _ _ => n

/-- Field `is_dir`. -/
def is_dir : TreeNode → Bool
  | .mk _ b _ => b

/-- Field `children`, when present. -/
def children : TreeNode → Option (List TreeNode)
  | .mk _ _ cs => cs

end TreeNode

/-! ## `renderTree` (script.js, lines 19-27) -/

mutual
/-- The source function:
`let result = '  '.repeat(depth) + (node.is_dir ? '📁 ' : '📄 ') + node.name + '\n';`
then, when `node.children` is there, the loop of `renderLoop`; then
`return result`. -/
def renderTree : TreeNode → Nat → String
  | .mk name is_dir children, depth =>
    let result := strRepeat "  " depth ++ (if is_dir then "📁 " else "📄 ") ++ name ++ "\n"
    match children with
    | none => result
    | some cs => renderLoop cs depth result
/-- The loop `for (let child of node.children) { result += renderTree(child, depth + 1); }`
over the remaining children, with the local variable `result` as accumulator. -/
def renderLoop : List TreeNode → Nat → String → String
  | [], _, result => result
  | child :: rest, depth, result =>
    renderLoop rest depth (result ++ renderTree child (depth + 1))
end

/-! ## The vocabulary of the specification -/

/-- The icon of a node: a folder for a directory, a page for a file, each
followed by one space. -/
def icon (n : TreeNode) : String :=
  if n.is_dir then "📁 " else "📄 "

/-- The line of a node at a given indentation level: `level` two-space indent
units, the icon, the name, a newline. -/
def nodeLine (n : TreeNode) (level : Nat) : String :=
  strRepeat "  " level ++ icon n ++ n.name ++ "\n"

/-- Concatenation of a list of strings, in order. -/
def concatAll : List String → String
  | [] => ""
  | s :: rest => s ++ concatAll rest

mutual
/-- The nodes of a tree in pre-order (a parent before its children, children in
array order), each with its nesting level below the root, counted from `k`. -/
def preorder : TreeNode → Nat → List (Nat × TreeNode)
  | .mk name is_dir children, k =>
    (k, .mk name is_dir children) ::
      (match children with
       | none => []
       | some cs => preorderAll cs (k + 1))
/-- Pre-order listing of a sequence of sibling trees, all at level `k`. -/
def preorderAll : List TreeNode → Nat → List (Nat × TreeNode)
  | [], _ => []
  | c :: cs, k => preorder c k ++ preorderAll cs k
end

/-- Insert `ind` at the start of every line of a text: at the start of the
text when `atStart` is set, and after every newline that is followed by at
least one more character. -/
def indentFrom (ind : List Char) : Bool → List Char → List Char
  | _, [] => []
  | atStart, c :: cs =>
    (if atStart then ind else []) ++ c :: indentFrom ind (c == '\n') cs

/-- A text with `k` two-space indent units prepended to each of its lines. -/
def indentLines (k : Nat) (text : String) : String :=
  String.mk (indentFrom (strRepeat "  " k).data true text.data)

/-- No node name in the tree contains a newline. -/
def namesNewlineFree (n : TreeNode) : Bool :=
  (preorder n 0).all (fun p => !(p.2.name.data.contains '\n'))

/-- The number of leading spaces of a text. -/
def leadingSpaces (text : String) : Nat :=
  (text.data.takeWhile (fun c => c == ' ')).length

/-! ## Example trees -/

/-- The leaf `{name: "a.txt", is_dir: false}`. -/
def leafExample : TreeNode := .mk "a.txt" false none

/-- The directory `{name:"root", is_dir:true, children:[{name:"f", is_dir:false}]}`. -/
def rootExample : TreeNode := .mk "root" true (some [.mk "f" false none])

/-- A three-level tree `a > b > c`. -/
def nestedExample : TreeNode :=
  .mk "a" true (some [.mk "b" true (some [.mk "c" false none])])

/-! ## The page -/

/-- An error object; the script reads only its `message`. -/
structure JsError where
  message : String
deriving DecidableEq

/-- The effects of the script on its surroundings, in the order performed. -/
inductive Event where
  /-- `output.textContent = text`. -/
  | setText (text : String)
  /-- `fetch(url)`: the GET request is issued. -/
  | request (url : String)
  /-- `res.json()`: the body is read and parsed. -/
  | readJson
  /-- `renderTree(data, 0)` is called. -/
  | render
deriving DecidableEq

/-- The part of the page the script touches: the value of the element
`repo-url` (a JavaScript string, as its UTF-16 code units), the text content of
the element `output`, the log of effects so far, oldest first, and, in step
with the log, the text the output area held right after each of these effects
(read off `output` at that moment). Both elements are taken to exist. -/
structure Page where
  repo_url : List Nat
  output : String
  log : List Event
  shown : List String
deriving DecidableEq

/-! ## `renderTree` on an object heap

In the script a node is a reference to an object. Here the objects live in a
heap, a node is an address, and the interpreter state is threaded through
every step of the function, so that what a call does to the state is a
statement about the function and not a property of the notation. A heap may
hold a self-referential structure, on which the source recurses without end;
the recursion is therefore bounded by `fuel`, the number of nested calls
allowed, and running out of it gives `none`. -/

/-- An object on the heap: the three properties the renderer reads, `children`
being an array of references when present. -/
structure JsObject where
  name : String
  is_dir : Bool
  children : Option (List Nat)
deriving DecidableEq

/-- The interpreter state: the heap of objects and the page. -/
structure JsState where
  heap : List JsObject
  page : Page
deriving DecidableEq

/-- The loop `for (let child of node.children) { result += <call>(child); }` on
the heap, where `call` is the recursive call at depth `depth + 1`. -/
def renderLoopOnHeap (call : JsState → Nat → Option (String × JsState)) :
    List Nat → JsState → String → Option (String × JsState)
  | [], st, result => some (result, st)
  | child :: rest, st, result =>
    match call st child with
    | none => none
    | some (block, st2) => renderLoopOnHeap call rest st2 (result ++ block)

/-- The source function `renderTree(node, depth)` with `node` a reference into
the heap of `st`: returns the string and the state after the call. -/
def renderTreeOnHeap : Nat → JsState → Nat → Nat → Option (String × JsState)
  | 0, _, _, _ => none
  | fuel + 1, st, node, depth =>
    match st.heap[node]? with
    | none => none
    | some obj =>
      let result :=
        strRepeat "  " depth ++ (if obj.is_dir then "📁 " else "📄 ") ++ obj.name ++ "\n"
      match obj.children with
      | none => some (result, st)
      | some cs =>
        renderLoopOnHeap (fun st2 child => renderTreeOnHeap fuel st2 child (depth + 1))
          cs st result

mutual
/-- The object at address `node` of the heap, with everything reachable from
it, is the tree `t`. -/
def represents (heap : List JsObject) : TreeNode → Nat → Bool
  | .mk name is_dir children, node =>
    match heap[node]? with
    | none => false
    | some obj =>
      obj.name == name && obj.is_dir == is_dir &&
        (match children, obj.children with
         | none, none => true
         | some cs, some refs => representsAll heap cs refs
         | _, _ => false)
/-- The objects at the addresses `refs` are, in order, the trees `ts`. -/
def representsAll (heap : List JsObject) : List TreeNode → List Nat → Bool
  | [], [] => true
  | t :: ts, r :: refs => represents heap t r && representsAll heap ts refs
  | _, _ => false
end

mutual
/-- The number of nested calls `renderTree` makes on a tree: one for a node
without children, one more than the deepest child otherwise. -/
def callDepth : TreeNode → Nat
  | .mk _ _ none => 1
  | .mk _ _ (some cs) => callDepthAll cs + 1
/-- The largest `callDepth` among a list of trees. -/
def callDepthAll : List TreeNode → Nat
  | [] => 0
  | c :: cs => max (callDepth c) (callDepthAll cs)
end

mutual
/-- Lay a tree out on the heap, the way parsing does: the children first, in
order, then the object of the node itself, appended at the end of the heap.
Returns the address of the node and the new heap. -/
def alloc : TreeNode → List JsObject → Nat × List JsObject
  | .mk name is_dir none, heap => (heap.length, heap ++ [⟨name, is_dir, none⟩])
  | .mk name is_dir (some cs), heap =>
    ((allocAll cs heap).2.length,
      (allocAll cs heap).2 ++ [⟨name, is_dir, some (allocAll cs heap).1⟩])
/-- Lay a list of trees out on the heap, one after the other. -/
def allocAll : List TreeNode → List JsObject → List Nat × List JsObject
  | [], heap => ([], heap)
  | c :: cs, heap =>
    ((alloc c heap).1 :: (allocAll cs (alloc c heap).2).1, (allocAll cs (alloc c heap).2).2)
end

/-- A heap holding `rootExample`: the root at address 0, its child at 1. -/
def heapExample : JsState :=
  { heap := [⟨"root", true, some [1]⟩, ⟨"f", false, none⟩],
    page := { repo_url := [], output := "", log := [], shown := [] } }

/-- Two calls `renderTree(node, depth)` one after the other, the second in the
state the first one left: the two strings and the final state. -/
def renderTreeTwice (fuel : Nat) (st : JsState) (node depth : Nat) :
    Option (String × String × JsState) :=
  match renderTreeOnHeap fuel st node depth with
  | none => none
  | some (first, st1) =>
    match renderTreeOnHeap fuel st1 node depth with
    | none => none
    | some (second, st2) => some (first, second, st2)

/-! ## `fetchTree` (script.js, lines 1-17) -/

/-- The UTF-16 code units of a text. -/
def toCodeUnits (s : String) : List Nat :=
  s.data.flatMap (fun c =>
    if c.toNat < 0x10000 then [c.toNat]
    else [0xD800 + (c.toNat - 0x10000) / 0x400, 0xDC00 + (c.toNat - 0x10000) % 0x400])

/-- The code units `encodeURIComponent` leaves as they are: ASCII letters and
digits and `- _ . ! ~ * ' ( )`. -/
def isUriUnescaped (c : Nat) : Bool :=
  (0x41 ≤ c && c ≤ 0x5A) || (0x61 ≤ c && c ≤ 0x7A) || (0x30 ≤ c && c ≤ 0x39) ||
    c == 0x2D || c == 0x5F || c == 0x2E || c == 0x21 || c == 0x7E ||
    c == 0x2A || c == 0x27 || c == 0x28 || c == 0x29

/-- An upper-case hexadecimal digit. -/
def hexDigit (n : Nat) : Char :=
  if n < 10 then Char.ofNat (48 + n) else Char.ofNat (55 + n)

/-- The UTF-8 octets of a code point. -/
def utf8Octets (cp : Nat) : List Nat :=
  if cp < 0x80 then [cp]
  else if cp < 0x800 then [0xC0 + cp / 0x40, 0x80 + cp % 0x40]
  else if cp < 0x10000 then [0xE0 + cp / 0x1000, 0x80 + cp / 0x40 % 0x40, 0x80 + cp % 0x40]
  else [0xF0 + cp / 0x40000, 0x80 + cp / 0x1000 % 0x40, 0x80 + cp / 0x40 % 0x40,
    0x80 + cp % 0x40]

/-- The escape of a code point: `%XX` for each of its UTF-8 octets. -/
def percentEncode (cp : Nat) : String :=
  String.mk ((utf8Octets cp).flatMap (fun o => ['%', hexDigit (o / 16), hexDigit (o % 16)]))

/-- The `URIError` that `encodeURIComponent` throws on an unpaired surrogate
(the wording of the message is the engine's). -/
def uriError : JsError := ⟨"URI malformed"⟩

/-- The built-in `encodeURIComponent` on the code units of a string: unescaped
code units are kept, every other code point is escaped, and an unpaired
surrogate makes the call throw. -/
def encodeURIComponent : List Nat → Except JsError String
  | [] => .ok ""
  | c :: rest =>
    if isUriUnescaped c then
      (encodeURIComponent rest).map (fun s => String.singleton (Char.ofNat c) ++ s)
    else if 0xDC00 ≤ c ∧ c ≤ 0xDFFF then .error uriError
    else if 0xD800 ≤ c ∧ c ≤ 0xDBFF then
      match rest with
      | [] => .error uriError
      | t :: rest2 =>
        if 0xDC00 ≤ t ∧ t ≤ 0xDFFF then
          (encodeURIComponent rest2).map (fun s =>
            percentEncode ((c - 0xD800) * 0x400 + (t - 0xDC00) + 0x10000) ++ s)
        else .error uriError
    else (encodeURIComponent rest).map (fun s => percentEncode c ++ s)

/-- The value `res.json()` resolves to: a value of the `TreeNode` shape, or any
other value, given by what `renderTree` does when called on it at depth 0
(throw an error, as on `null`, or return some string). -/
inductive JsonData where
  | tree (t : TreeNode)
  | other (rendering : Except JsError String)

/-- An HTTP response as the script sees it: the `ok` flag, the status code, and
what `res.json()` settles to (a rejection on a body that is not JSON). -/
structure Response where
  ok : Bool
  status : Nat
  json : Except JsError JsonData

/-- The call `renderTree(data, 0)` of the second handler. -/
def callRenderTree : JsonData → Except JsError String
  | .tree t => .ok (renderTree t 0)
  | .other rendering => rendering

/-- A settled promise (fulfilled with a value or rejected with an error),
with the page as it is when the promise settles. -/
abbrev Settled (α : Type) := Except JsError α × Page

/-- Promise `.then(onFulfilled)`: the handler runs on a fulfilled promise, and
a rejection passes through. A handler that throws rejects the new promise. -/
def promiseThen {α β : Type} (p : Settled α) (onFulfilled : α → Page → Settled β) :
    Settled β :=
  match p with
  | (.ok value, page) => onFulfilled value page
  | (.error err, page) => (.error err, page)

/-- Promise `.catch(onRejected)`: the handler runs on a rejected promise, and a
fulfilled promise passes through. -/
def promiseCatch {α : Type} (p : Settled α) (onRejected : JsError → Page → Settled α) :
    Settled α :=
  match p with
  | (.ok value, page) => (.ok value, page)
  | (.error err, page) => onRejected err page

/-- Record an effect in the log, with the text the output area holds at that
moment. -/
def logEvent (e : Event) (page : Page) : Page :=
  { page with log := page.log ++ [e], shown := page.shown ++ [page.output] }

/-- The assignment `output.textContent = text`: the text of the output area
becomes `text`, and the effect is recorded. -/
def setTextContent (text : String) (page : Page) : Page :=
  logEvent (.setText text) { page with output := text }

/-- The end of one invocation of `fetchTree`: the page, and the error that
escaped the function or its promise chain, if any. -/
structure Outcome where
  page : Page
  uncaught : Option JsError

/-- The source function. `fetch` is the network: what the promise returned by
`fetch(url)` settles to, a rejection for a network failure and a response
otherwise. -/
def fetchTree (fetch : String → Except JsError Response) (page : Page) : Outcome :=
  let url := page.repo_url
  let page := setTextContent "Loading..." page
  match encodeURIComponent url with
  | .error err => { page := page, uncaught := some err }
  | .ok encoded =>
    let resource := "/tree?url=" ++ encoded
    let p0 : Settled Response := (fetch resource, logEvent (.request resource) page)
    let p1 : Settled JsonData := promiseThen p0 (fun res page =>
      if !res.ok then (.error ⟨"Gagal mengambil data"⟩, page)
      else (res.json, logEvent .readJson page))
    let p2 : Settled Unit := promiseThen p1 (fun data page =>
      match callRenderTree data with
      | .error err => (.error err, logEvent .render page)
      | .ok text => (.ok (), setTextContent text (logEvent .render page)))
    let p3 : Settled Unit := promiseCatch p2 (fun err page =>
      (.ok (), setTextContent ("Error: " ++ err.message) page))
    { page := p3.2,
      uncaught := match p3.1 with
        | .ok _ => none
        | .error err => some err }

/-- A page with a repository URL typed in and some earlier output. -/
def pageExample : Page :=
  { repo_url := toCodeUnits "https://github.com/a/b", output := "old text", log := [],
    shown := [] }

/-- The request URL built from an encoded value: the template literal
`/tree?url=${...}`. -/
def requestUrl (encoded : String) : String :=
  "/tree?url=" ++ encoded

/-- The failures of the fetch-and-render flow, each with the message of its
error: the request is issued and then the fetch rejects (network error), or the
response is not OK, or `res.json()` rejects (JSON parse error), or the renderer
throws on the parsed value. -/
inductive FlowFails (fetch : String → Except JsError Response) (page : Page) :
    String → Prop where
  | network (encoded : String) (err : JsError) :
      encodeURIComponent page.repo_url = .ok encoded →
      fetch (requestUrl encoded) = .error err →
      FlowFails fetch page err.message
  | status (encoded : String) (res : Response) :
      encodeURIComponent page.repo_url = .ok encoded →
      fetch (requestUrl encoded) = .ok res →
      res.ok = false →
      FlowFails fetch page "Gagal mengambil data"
  | parse (encoded : String) (res : Response) (err : JsError) :
      encodeURIComponent page.repo_url = .ok encoded →
      fetch (requestUrl encoded) = .ok res →
      res.ok = true →
      res.json = .error err →
      FlowFails fetch page err.message
  | render (encoded : String) (res : Response) (data : JsonData) (err : JsError) :
      encodeURIComponent page.repo_url = .ok encoded →
      fetch (requestUrl encoded) = .ok res →
      res.ok = true →
      res.json = .ok data →
      callRenderTree data = .error err →
      FlowFails fetch page err.message

/-- A network on which every request fails. -/
def offline : String → Except JsError Response :=
  fun _ => .error ⟨"Failed to fetch"⟩

/-- A network that answers every request with `404` and a body that is not JSON. -/
def notFound : String → Except JsError Response :=
  fun _ => .ok ⟨false, 404, .error ⟨"Unexpected token < in JSON"⟩⟩

/-- A network that answers every request with `200` and the given body outcome. -/
def answering (json : Except JsError JsonData) : String → Except JsError Response :=
  fun _ => .ok ⟨true, 200, json⟩

/-! ## The embedding on concrete inputs -/

theorem encodeURIComponent_example :
    encodeURIComponent (toCodeUnits "https://github.com/a/b é📁")
      = .ok "https%3A%2F%2Fgithub.com%2Fa%2Fb%20%C3%A9%F0%9F%93%81" := by
  rfl

theorem encodeURIComponent_lone_surrogate :
    encodeURIComponent [0x61, 0xD800, 0x62] = .error uriError := by
  rfl

theorem renderTreeOnHeap_example :
    renderTreeOnHeap 2 heapExample 0 0 = some ("📁 root\n  📄 f\n", heapExample) := by
  decide

theorem indentLines_example :
    indentLines 1 "a\n\nb\n" = "  a\n  \n  b\n" := by
  decide

/-- With a newline inside a name, deeper rendering does not indent the second
part of the name, while indenting each line of the block does. -/
theorem renderTree_newline_in_name :
    renderTree (.mk "a\nb" false none) 1 = "  📄 a\nb\n"
    ∧ indentLines 1 (renderTree (.mk "a\nb" false none) 0) = "  📄 a\n  b\n" := by
  decide

theorem fetchTree_log_example :
    (fetchTree (fun _ => .ok ⟨true, 200, .ok (.tree rootExample)⟩) pageExample).page.log
      = [.setText "Loading...", .request "/tree?url=https%3A%2F%2Fgithub.com%2Fa%2Fb",
          .readJson, .render, .setText "📁 root\n  📄 f\n"] := by
  decide

/-! ## Lemmas on strings -/

theorem strRepeat_add (s : String) (a b : Nat) :
    strRepeat s (a + b) = strRepeat s a ++ strRepeat s b := by
  induction a with
  | zero => simp [strRepeat]
  | succ n ih =>
    have h : n + 1 + b = (n + b) + 1 := by omega
    rw [h, strRepeat, strRepeat, ih, String.append_assoc]

theorem strRepeat_two_spaces_data (n : Nat) :
    (strRepeat "  " n).data = List.replicate (2 * n) ' ' := by
  induction n with
  | zero => rfl
  | succ n ih =>
    have h : 2 * (n + 1) = (2 * n + 1) + 1 := by omega
    rw [strRepeat, String.data_append, ih, h, List.replicate_succ, List.replicate_succ]
    rfl

theorem concatAll_append (xs ys : List String) :
    concatAll (xs ++ ys) = concatAll xs ++ concatAll ys := by
  induction xs with
  | nil => simp [concatAll]
  | cons x xs ih => simp [concatAll, ih, String.append_assoc]

/-! ## Lemmas on `renderTree` -/

/-- The loop appends the children's blocks, in order, to the accumulator. -/
theorem renderLoop_eq (cs : List TreeNode) (depth : Nat) (result : String) :
    renderLoop cs depth result
      = result ++ concatAll (cs.map (fun c => renderTree c (depth + 1))) := by
  induction cs generalizing result with
  | nil => simp [renderLoop, concatAll]
  | cons c cs ih => simp [renderLoop, concatAll, ih, String.append_assoc]

/-- Unfolding of `renderTree` at a node. -/
theorem renderTree_mk (name : String) (is_dir : Bool)
    (children : Option (List TreeNode)) (depth : Nat) :
    renderTree (.mk name is_dir children) depth
      = nodeLine (.mk name is_dir children) depth ++
          (match children with
           | none => ""
           | some cs => concatAll (cs.map (fun c => renderTree c (depth + 1)))) := by
  cases children with
  | none => simp [renderTree, nodeLine, icon, TreeNode.name, TreeNode.is_dir]
  | some cs =>
    simp [renderTree, renderLoop_eq, nodeLine, icon, TreeNode.name, TreeNode.is_dir]

/-! ## Induction over trees -/

mutual
/-- Induction over a tree: a property holds of every node when it holds of a
node as soon as it holds of all the node's children. -/
theorem TreeNode.induct (P : TreeNode → Prop)
    (step : ∀ name is_dir children,
      (∀ cs, children = some cs → ∀ c ∈ cs, P c) → P (.mk name is_dir children)) :
    ∀ t, P t
  | .mk name is_dir none => step name is_dir none (fun _ h => by cases h)
  | .mk name is_dir (some cs) =>
    step name is_dir (some cs) (fun cs2 h => by
      cases h
      exact TreeNode.induct_list P step cs)
/-- The list part of `TreeNode.induct`. -/
theorem TreeNode.induct_list (P : TreeNode → Prop)
    (step : ∀ name is_dir children,
      (∀ cs, children = some cs → ∀ c ∈ cs, P c) → P (.mk name is_dir children)) :
    ∀ ts : List TreeNode, ∀ c ∈ ts, P c
  | [] => fun _ h => by cases h
  | t :: ts => fun c h => by
    rcases List.mem_cons.mp h with h1 | h1
    · rw [h1]; exact TreeNode.induct P step t
    · exact TreeNode.induct_list P step ts c h1
end

/-! ## Lemmas on the pre-order listing -/

theorem preorder_mk (name : String) (is_dir : Bool) (children : Option (List TreeNode))
    (k : Nat) :
    preorder (.mk name is_dir children) k
      = (k, .mk name is_dir children) ::
          (match children with
           | none => []
           | some cs => preorderAll cs (k + 1)) := by
  cases children <;> simp [preorder]

theorem preorderAll_eq (cs : List TreeNode) (k : Nat) :
    preorderAll cs k = (cs.map (fun c => preorder c k)).flatten := by
  induction cs with
  | nil => simp [preorderAll]
  | cons c cs ih => simp [preorderAll, ih]

/-- Listing from level `j + k` is listing from level `j` with every level raised by `k`. -/
theorem preorder_shift (t : TreeNode) :
    ∀ j k, preorder t (j + k) = (preorder t j).map (fun p => (p.1 + k, p.2)) := by
  induction t using TreeNode.induct with
  | step name is_dir children ih =>
    intro j k
    cases children with
    | none => simp [preorder_mk]
    | some cs =>
      have hcs : ∀ c ∈ cs, ∀ j k,
          preorder c (j + k) = (preorder c j).map (fun p => (p.1 + k, p.2)) :=
        ih cs rfl
      simp only [preorder_mk, List.map_cons, preorderAll_eq, List.map_flatten, List.map_map]
      congr 2
      apply List.map_congr_left
      intro c hc
      have h : j + k + 1 = (j + 1) + k := by omega
      simp only [Function.comp, h]
      exact hcs c hc (j + 1) k

/-- The rendered block is the concatenation of the lines of the nodes in
pre-order, levels counted from the depth of the call. -/
theorem renderTree_eq_lines (t : TreeNode) :
    ∀ d, renderTree t d = concatAll ((preorder t d).map (fun p => nodeLine p.2 p.1)) := by
  induction t using TreeNode.induct with
  | step name is_dir children ih =>
    intro d
    cases children with
    | none => simp [renderTree_mk, preorder_mk, concatAll]
    | some cs =>
      have hcs : ∀ c ∈ cs, ∀ d,
          renderTree c d = concatAll ((preorder c d).map (fun p => nodeLine p.2 p.1)) :=
        ih cs rfl
      simp only [renderTree_mk, preorder_mk, List.map_cons, concatAll]
      congr 1
      clear ih
      induction cs with
      | nil => simp [preorderAll, concatAll]
      | cons c cs ihc =>
        simp only [List.map_cons, concatAll, preorderAll, List.map_append, concatAll_append]
        rw [hcs c (List.mem_cons_self _ _), ihc (fun c hc => hcs c (List.mem_cons_of_mem _ hc))]

/-! ## Lemmas on indentation of lines -/

theorem indentFrom_false_line (ind l rest : List Char) (hl : '\n' ∉ l) :
    indentFrom ind false (l ++ '\n' :: rest) = l ++ '\n' :: indentFrom ind true rest := by
  induction l with
  | nil => simp [indentFrom]
  | cons c l ih =>
    have hc : (c == '\n') = false := by
      simp only [beq_eq_false_iff_ne, ne_eq]
      intro h
      exact hl (by simp [h])
    have hl2 : '\n' ∉ l := fun h => hl (List.mem_cons_of_mem _ h)
    simp [indentFrom, hc, ih hl2]

theorem indentFrom_true_line (ind l rest : List Char) (hl : '\n' ∉ l) :
    indentFrom ind true (l ++ '\n' :: rest)
      = ind ++ (l ++ '\n' :: indentFrom ind true rest) := by
  cases l with
  | nil => simp [indentFrom]
  | cons c l =>
    have hc : (c == '\n') = false := by
      simp only [beq_eq_false_iff_ne, ne_eq]
      intro h
      exact hl (by simp [h])
    have hl2 : '\n' ∉ l := fun h => hl (List.mem_cons_of_mem _ h)
    simp [indentFrom, hc, indentFrom_false_line ind l rest hl2]

theorem icon_data_cases (n : TreeNode) :
    (icon n).data = ['📁', ' '] ∨ (icon n).data = ['📄', ' '] := by
  unfold icon
  cases n.is_dir
  · right; rfl
  · left; rfl

theorem nodeLine_data (n : TreeNode) (level : Nat) :
    (nodeLine n level).data
      = List.replicate (2 * level) ' ' ++ ((icon n).data ++ n.name.data) ++ ['\n'] := by
  simp [nodeLine, String.data_append, strRepeat_two_spaces_data]

theorem concatAll_data (xs : List String) :
    (concatAll xs).data = (xs.map String.data).flatten := by
  induction xs with
  | nil => rfl
  | cons x xs ih => simp [concatAll, String.data_append, ih]

/-- Indenting a block made of node lines indents every line. -/
theorem indentFrom_lines (k : Nat) (ps : List (Nat × TreeNode))
    (hps : ∀ p ∈ ps, '\n' ∉ p.2.name.data) :
    indentFrom (List.replicate (2 * k) ' ') true
        (concatAll (ps.map (fun p => nodeLine p.2 p.1))).data
      = (concatAll (ps.map (fun p => nodeLine p.2 (p.1 + k)))).data := by
  induction ps with
  | nil => simp [concatAll, indentFrom]
  | cons p ps ih =>
    have hbody : '\n' ∉ List.replicate (2 * p.1) ' ' ++ ((icon p.2).data ++ p.2.name.data) := by
      intro h
      rcases List.mem_append.mp h with h1 | h1
      · have := List.eq_of_mem_replicate h1
        exact absurd this (by decide)
      · rcases List.mem_append.mp h1 with h2 | h2
        · rcases icon_data_cases p.2 with hi | hi <;> rw [hi] at h2 <;> revert h2 <;> decide
        · exact hps p (List.mem_cons_self _ _) h2
    have hrest := ih (fun q hq => hps q (List.mem_cons_of_mem _ hq))
    simp only [List.map_cons, concatAll, String.data_append, nodeLine_data]
    rw [List.append_assoc, show ['\n'] ++ (concatAll (ps.map (fun p => nodeLine p.2 p.1))).data
        = '\n' :: (concatAll (ps.map (fun p => nodeLine p.2 p.1))).data from rfl,
      indentFrom_true_line _ _ _ hbody, hrest]
    have hk : 2 * (p.1 + k) = 2 * k + 2 * p.1 := by omega
    rw [hk, List.replicate_add]
    simp only [List.append_assoc, List.singleton_append]

/-! ## The renderer: structure of the output -/

theorem renderTree_data_head (n : TreeNode) (d : Nat) :
    ∃ rest, (renderTree n d).data
      = List.replicate (2 * d) ' ' ++ ((icon n).data ++ rest) := by
  cases n with
  | mk name is_dir children =>
    refine ⟨(TreeNode.mk name is_dir children).name.data ++ ['\n'] ++
      (match children with
       | none => ""
       | some cs => concatAll (cs.map (fun c => renderTree c (d + 1)))).data, ?_⟩
    rw [renderTree_mk, String.data_append, nodeLine_data]
    simp only [List.append_assoc]

theorem takeWhile_space_replicate (n : Nat) (l : List Char) :
    (List.replicate n ' ' ++ l).takeWhile (fun c => c == ' ')
      = List.replicate n ' ' ++ l.takeWhile (fun c => c == ' ') := by
  induction n with
  | zero => simp
  | succ n ih => simp [List.replicate_succ, List.takeWhile_cons, ih]

/-- C1: for every node and depth, `renderTree(N, d)` is N's own line followed by
the concatenation, in array order, of `renderTree(c, d + 1)` for the children
`c` of N; for a node without a `children` field it is N's own line and nothing
else; and the directory `root` with the one file `f` renders at depth 0 as
`"📁 root\n  📄 f\n"`. -/
theorem renderTree_own_line_then_children :
    (∀ (name : String) (is_dir : Bool) (children : Option (List TreeNode)) (d : Nat),
      renderTree (.mk name is_dir children) d
        = nodeLine (.mk name is_dir children) d ++
            (match children with
             | none => ""
             | some cs => concatAll (cs.map (fun c => renderTree c (d + 1)))))
    ∧ (∀ (name : String) (is_dir : Bool) (d : Nat),
        renderTree (.mk name is_dir none) d = nodeLine (.mk name is_dir none) d)
    ∧ renderTree rootExample 0 = "📁 root\n  📄 f\n" := by
  refine ⟨renderTree_mk, ?_, by decide⟩
  intro name is_dir d
  rw [renderTree_mk]
  simp

/-- C2: for every node (with or without children) and depth `d`,
`renderTree(N, d)` begins with `d` two-space indent units, then the folder icon
when `is_dir` is true and the file icon otherwise, then the name, then a
newline; the run of spaces it begins with is exactly `2 * d` long; and the leaf
`a.txt` at depth 0 gives exactly `"📄 a.txt\n"`. -/
theorem renderTree_begins_with_own_line :
    (∀ (N : TreeNode) (d : Nat), ∃ rest : String,
      renderTree N d
        = strRepeat "  " d ++ (if N.is_dir then "📁 " else "📄 ") ++ N.name ++ "\n" ++ rest)
    ∧ (∀ (N : TreeNode) (d : Nat), leadingSpaces (renderTree N d) = 2 * d)
    ∧ renderTree leafExample 0 = "📄 a.txt\n" := by
  refine ⟨?_, ?_, by decide⟩
  · intro N d
    cases N with
    | mk name is_dir children =>
      exact ⟨_, renderTree_mk name is_dir children d⟩
  · intro N d
    obtain ⟨rest, h⟩ := renderTree_data_head N d
    unfold leadingSpaces
    rw [h, takeWhile_space_replicate]
    rcases icon_data_cases N with hi | hi <;> rw [hi] <;>
      simp [List.takeWhile_cons]

/-- C3: indentation grows by one unit per nesting level: for every tree and
depth `d`, `renderTree(N, d)` is the concatenation, over the nodes of N in
pre-order, of the line with `d + k` indent units, the icon, the name and a
newline, `k` being the nesting level of the node below N; the three-level tree
`a > b > c` has levels 0, 1, 2 and renders at depth 0 with 0, 2 and 4 spaces. -/
theorem renderTree_preorder_lines :
    (∀ (N : TreeNode) (d : Nat),
      renderTree N d = concatAll ((preorder N 0).map (fun p => nodeLine p.2 (d + p.1))))
    ∧ (preorder nestedExample 0).map (fun p => (p.1, p.2.name)) = [(0, "a"), (1, "b"), (2, "c")]
    ∧ renderTree nestedExample 0 = "📁 a\n  📁 b\n    📄 c\n" := by
  refine ⟨?_, by decide, by decide⟩
  intro N d
  have h := preorder_shift N 0 d
  rw [Nat.zero_add] at h
  rw [renderTree_eq_lines, h, List.map_map]
  congr 1
  apply List.map_congr_left
  intro p _
  simp [Nat.add_comm]

/-- C10: depth only shifts the block: for every tree in which no name contains
a newline and all `d`, `k`, `renderTree(N, d + k)` is `renderTree(N, d)` with
`k` indent units prepended to each of its lines; in particular
`renderTree(N, d)` is `renderTree(N, 0)` with every line indented by `d` units. -/
theorem renderTree_depth_shift (N : TreeNode) (d k : Nat)
    (hnames : namesNewlineFree N = true) :
    renderTree N (d + k) = indentLines k (renderTree N d)
    ∧ renderTree N d = indentLines d (renderTree N 0) := by
  have hfree : ∀ j, ∀ p ∈ preorder N j, '\n' ∉ p.2.name.data := by
    intro j p hp
    have hs := preorder_shift N 0 j
    rw [Nat.zero_add] at hs
    rw [hs] at hp
    obtain ⟨q, hq, rfl⟩ := List.mem_map.mp hp
    have := (List.all_eq_true.mp hnames) q hq
    simpa using this
  have key : ∀ a b, renderTree N (a + b) = indentLines b (renderTree N a) := by
    intro a b
    apply String.ext
    unfold indentLines
    simp only
    rw [strRepeat_two_spaces_data, renderTree_eq_lines N a,
      indentFrom_lines b (preorder N a) (hfree a), renderTree_eq_lines N (a + b),
      preorder_shift N a b, List.map_map]
    rfl
  refine ⟨key d k, ?_⟩
  have h0 := key 0 d
  rw [Nat.zero_add] at h0
  exact h0

theorem renderTree_depth_shift_witness :
    namesNewlineFree rootExample = true
    ∧ renderTree rootExample (1 + 2) = indentLines 2 (renderTree rootExample 1)
    ∧ renderTree rootExample 1 = indentLines 1 (renderTree rootExample 0) :=
  ⟨by decide, renderTree_depth_shift rootExample 1 2 (by decide)⟩

/-! ## The renderer on the heap: no effect on the state -/

theorem represents_mk (heap : List JsObject) (name : String) (is_dir : Bool)
    (children : Option (List TreeNode)) (node : Nat)
    (h : represents heap (.mk name is_dir children) node = true) :
    ∃ obj, heap[node]? = some obj ∧ obj.name = name ∧ obj.is_dir = is_dir ∧
      ((children = none ∧ obj.children = none) ∨
        ∃ cs refs, children = some cs ∧ obj.children = some refs ∧
          representsAll heap cs refs = true) := by
  rw [represents] at h
  cases hobj : heap[node]? with
  | none => rw [hobj] at h; cases h
  | some obj =>
    rw [hobj] at h
    simp only [Bool.and_eq_true, beq_iff_eq] at h
    refine ⟨obj, rfl, h.1.1, h.1.2, ?_⟩
    have h2 := h.2
    cases children with
    | none =>
      cases hoc : obj.children with
      | none => exact Or.inl ⟨rfl, rfl⟩
      | some refs => rw [hoc] at h2; cases h2
    | some cs =>
      cases hoc : obj.children with
      | none => rw [hoc] at h2; cases h2
      | some refs => rw [hoc] at h2; exact Or.inr ⟨cs, refs, rfl, rfl, h2⟩

theorem callDepth_le_of_mem (cs : List TreeNode) (c : TreeNode) (hc : c ∈ cs) :
    callDepth c ≤ callDepthAll cs := by
  induction cs with
  | nil => cases hc
  | cons x xs ih =>
    rcases List.mem_cons.mp hc with h | h
    · rw [h]; simp [callDepthAll]
    · have := ih h
      simp only [callDepthAll]
      omega

/-- The loop on the heap computes the loop on tree values and leaves the state
alone, when each call does. -/
theorem renderLoopOnHeap_of_represents
    (call : JsState → Nat → Option (String × JsState)) (st : JsState) (d : Nat) :
    ∀ (cs : List TreeNode) (refs : List Nat) (result : String),
      representsAll st.heap cs refs = true →
      (∀ c ∈ cs, ∀ r, represents st.heap c r = true →
        call st r = some (renderTree c (d + 1), st)) →
      renderLoopOnHeap call refs st result = some (renderLoop cs d result, st) := by
  intro cs
  induction cs with
  | nil =>
    intro refs result hrep _
    cases refs with
    | nil => simp [renderLoopOnHeap, renderLoop]
    | cons r refs => simp [representsAll] at hrep
  | cons c cs ih =>
    intro refs result hrep hcall
    cases refs with
    | nil => simp [representsAll] at hrep
    | cons r refs =>
      simp only [representsAll, Bool.and_eq_true] at hrep
      simp only [renderLoopOnHeap, renderLoop, hcall c (List.mem_cons_self _ _) r hrep.1]
      exact ih refs _ hrep.2 (fun c2 hc2 => hcall c2 (List.mem_cons_of_mem _ hc2))

/-- On a heap object that is the tree `t`, with fuel for the nesting of `t`, the
call returns the string `renderTree t d` and the state it was given. -/
theorem renderTreeOnHeap_eq (t : TreeNode) :
    ∀ (fuel : Nat) (st : JsState) (node d : Nat),
      represents st.heap t node = true → callDepth t ≤ fuel →
      renderTreeOnHeap fuel st node d = some (renderTree t d, st) := by
  induction t using TreeNode.induct with
  | step name is_dir children ih =>
    intro fuel st node d hrep hfuel
    obtain ⟨obj, hobj, hname, hdir, hch⟩ := represents_mk _ _ _ _ _ hrep
    cases fuel with
    | zero => cases children <;> simp [callDepth] at hfuel
    | succ fuel =>
      rcases hch with ⟨hc, hoc⟩ | ⟨cs, refs, hc, hoc, hall⟩
      · subst hc
        simp [renderTreeOnHeap, hobj, hoc, renderTree, hname, hdir]
      · subst hc
        simp only [renderTreeOnHeap, hobj, hoc, renderTree, hname, hdir]
        apply renderLoopOnHeap_of_represents
        · exact hall
        · intro c hc r hr
          apply ih cs rfl c hc fuel st r (d + 1) hr
          have := callDepth_le_of_mem cs c hc
          simp only [callDepth] at hfuel
          omega

/-- The loop leaves the state alone when each call that returns does. -/
theorem renderLoopOnHeap_frame (call : JsState → Nat → Option (String × JsState))
    (hcall : ∀ st r block st2, call st r = some (block, st2) → st2 = st) :
    ∀ (refs : List Nat) (st : JsState) (result out : String) (st2 : JsState),
      renderLoopOnHeap call refs st result = some (out, st2) → st2 = st := by
  intro refs
  induction refs with
  | nil =>
    intro st result out st2 h
    simp [renderLoopOnHeap] at h
    exact h.2.symm
  | cons r refs ih =>
    intro st result out st2 h
    simp only [renderLoopOnHeap] at h
    cases hc : call st r with
    | none => simp [hc] at h
    | some p =>
      obtain ⟨block, st1⟩ := p
      simp only [hc] at h
      have h1 := hcall st r block st1 hc
      subst h1
      exact ih _ _ _ _ h

/-- On any heap whatever, a call that returns hands back the state it was given. -/
theorem renderTreeOnHeap_frame :
    ∀ (fuel : Nat) (st : JsState) (node d : Nat) (out : String) (st2 : JsState),
      renderTreeOnHeap fuel st node d = some (out, st2) → st2 = st := by
  intro fuel
  induction fuel with
  | zero => intro st node d out st2 h; simp [renderTreeOnHeap] at h
  | succ fuel ih =>
    intro st node d out st2 h
    simp only [renderTreeOnHeap] at h
    cases hobj : st.heap[node]? with
    | none => simp [hobj] at h
    | some obj =>
      simp only [hobj] at h
      cases hoc : obj.children with
      | none =>
        simp [hoc] at h
        exact h.2.symm
      | some refs =>
        simp only [hoc] at h
        exact renderLoopOnHeap_frame _ (fun s r b s2 hs => ih s r (d + 1) b s2 hs) _ _ _ _ _ h

/-! ## Every tree has a layout on the heap -/

mutual
/-- Objects already on the heap stay what they are when more are appended. -/
theorem represents_append (heap ext : List JsObject) :
    ∀ (t : TreeNode) (node : Nat), represents heap t node = true →
      represents (heap ++ ext) t node = true
  | .mk name is_dir children, node => by
    intro h
    obtain ⟨obj, hobj, hname, hdir, hch⟩ := represents_mk _ _ _ _ _ h
    have hlt : node < heap.length := by
      rcases Nat.lt_or_ge node heap.length with h1 | h1
      · exact h1
      · rw [List.getElem?_eq_none h1] at hobj; cases hobj
    have hobj2 : (heap ++ ext)[node]? = some obj := by
      rw [List.getElem?_append_left hlt]; exact hobj
    rw [represents, hobj2]
    rcases hch with ⟨hc, hoc⟩ | ⟨cs, refs, hc, hoc, hall⟩
    · subst hc
      simp [hname, hdir, hoc]
    · subst hc
      simp [hname, hdir, hoc, representsAll_append heap ext cs refs hall]
/-- The list part of `represents_append`. -/
theorem representsAll_append (heap ext : List JsObject) :
    ∀ (ts : List TreeNode) (refs : List Nat), representsAll heap ts refs = true →
      representsAll (heap ++ ext) ts refs = true
  | [], [] => fun _ => by simp [representsAll]
  | [], _ :: _ => fun h => by simp [representsAll] at h
  | _ :: _, [] => fun h => by simp [representsAll] at h
  | t :: ts, r :: refs => fun h => by
    simp only [representsAll, Bool.and_eq_true] at h ⊢
    exact ⟨represents_append heap ext t r h.1, representsAll_append heap ext ts refs h.2⟩
end

theorem represents_of_object (heap : List JsObject) (name : String) (is_dir : Bool)
    (children : Option (List TreeNode)) (node : Nat) (refs : Option (List Nat))
    (hobj : heap[node]? = some ⟨name, is_dir, refs⟩)
    (hch : (children = none ∧ refs = none) ∨
      ∃ cs rs, children = some cs ∧ refs = some rs ∧ representsAll heap cs rs = true) :
    represents heap (.mk name is_dir children) node = true := by
  rw [represents, hobj]
  rcases hch with ⟨hc, hr⟩ | ⟨cs, rs, hc, hr, hall⟩
  · subst hc; subst hr; simp
  · subst hc; subst hr; simp [hall]

theorem alloc_none (name : String) (is_dir : Bool) (heap : List JsObject) :
    alloc (.mk name is_dir none) heap = (heap.length, heap ++ [⟨name, is_dir, none⟩]) := by
  rw [alloc]

theorem alloc_some (name : String) (is_dir : Bool) (cs : List TreeNode)
    (heap : List JsObject) :
    alloc (.mk name is_dir (some cs)) heap
      = ((allocAll cs heap).2.length,
          (allocAll cs heap).2 ++ [⟨name, is_dir, some (allocAll cs heap).1⟩]) := by
  rw [alloc]

theorem allocAll_cons (c : TreeNode) (cs : List TreeNode) (heap : List JsObject) :
    allocAll (c :: cs) heap
      = ((alloc c heap).1 :: (allocAll cs (alloc c heap).2).1,
          (allocAll cs (alloc c heap).2).2) := by
  rw [allocAll]

/-- Laying a list of trees out only appends to the heap, and the objects at the
returned addresses are the trees, when this holds of each tree of the list. -/
theorem allocAll_spec (ts : List TreeNode)
    (hts : ∀ t ∈ ts, ∀ heap : List JsObject,
      (∃ ext, (alloc t heap).2 = heap ++ ext)
      ∧ represents (alloc t heap).2 t (alloc t heap).1 = true) :
    ∀ heap : List JsObject,
      (∃ ext, (allocAll ts heap).2 = heap ++ ext)
      ∧ representsAll (allocAll ts heap).2 ts (allocAll ts heap).1 = true := by
  induction ts with
  | nil =>
    intro heap
    exact ⟨⟨[], by simp [allocAll]⟩, by simp [allocAll, representsAll]⟩
  | cons t ts ih =>
    intro heap
    obtain ⟨⟨e1, he1⟩, h1⟩ := hts t (List.mem_cons_self _ _) heap
    obtain ⟨⟨e2, he2⟩, h2⟩ :=
      ih (fun c hc => hts c (List.mem_cons_of_mem _ hc)) (alloc t heap).2
    rw [allocAll_cons]
    refine ⟨⟨e1 ++ e2, ?_⟩, ?_⟩
    · simp only
      rw [he2, he1, List.append_assoc]
    · simp only [representsAll, Bool.and_eq_true]
      refine ⟨?_, h2⟩
      rw [he2]
      exact represents_append _ _ _ _ h1

/-- Laying a tree out only appends to the heap, and the object at the returned
address is the tree: every tree has a layout on the heap, on top of whatever
the heap holds already. -/
theorem alloc_spec (t : TreeNode) :
    ∀ heap : List JsObject,
      (∃ ext, (alloc t heap).2 = heap ++ ext)
      ∧ represents (alloc t heap).2 t (alloc t heap).1 = true := by
  induction t using TreeNode.induct with
  | step name is_dir children ih =>
    intro heap
    cases children with
    | none =>
      rw [alloc_none]
      refine ⟨⟨[⟨name, is_dir, none⟩], rfl⟩, ?_⟩
      apply represents_of_object _ name is_dir none _ none
      · simp
      · exact Or.inl ⟨rfl, rfl⟩
    | some cs =>
      obtain ⟨⟨ext, hext⟩, hall⟩ := allocAll_spec cs (ih cs rfl) heap
      rw [alloc_some]
      refine ⟨⟨ext ++ [⟨name, is_dir, some (allocAll cs heap).1⟩], ?_⟩, ?_⟩
      · simp only
        rw [hext, List.append_assoc]
      · apply represents_of_object _ name is_dir (some cs) _ (some (allocAll cs heap).1)
        · simp
        · exact Or.inr ⟨cs, _, rfl, rfl, representsAll_append _ _ _ _ hall⟩

theorem alloc_example :
    alloc rootExample [] = (1, [⟨"f", false, none⟩, ⟨"root", true, some [0]⟩]) := by
  decide

/-- C9: `renderTree` is pure and deterministic. On every state, for every
object of the heap that is a finite tree N and every depth, with fuel for the
nesting of N: the call returns the string `renderTree N d` and hands back the
state unchanged, the node and the page included; two calls in a row return the
same string twice and leave the state as it was; and on any heap whatever, a
call that returns hands back the state it was given. -/
theorem renderTree_pure_and_deterministic (st : JsState) (node : Nat) (N : TreeNode)
    (d fuel : Nat) (hN : represents st.heap N node = true) (hfuel : callDepth N ≤ fuel) :
    renderTreeOnHeap fuel st node d = some (renderTree N d, st)
    ∧ renderTreeTwice fuel st node d = some (renderTree N d, renderTree N d, st)
    ∧ (∀ (fuel2 : Nat) (st1 : JsState) (node1 d1 : Nat) (out : String) (st2 : JsState),
        renderTreeOnHeap fuel2 st1 node1 d1 = some (out, st2) → st2 = st1) := by
  have h := renderTreeOnHeap_eq N fuel st node d hN hfuel
  refine ⟨h, ?_, renderTreeOnHeap_frame⟩
  simp only [renderTreeTwice, h]

theorem renderTree_pure_and_deterministic_witness :
    represents heapExample.heap rootExample 0 = true
    ∧ callDepth rootExample ≤ 2
    ∧ renderTreeOnHeap 2 heapExample 0 0 = some (renderTree rootExample 0, heapExample)
    ∧ renderTreeTwice 2 heapExample 0 0
        = some (renderTree rootExample 0, renderTree rootExample 0, heapExample) :=
  have h := renderTree_pure_and_deterministic heapExample 0 rootExample 0 2
    (by decide) (by decide)
  ⟨by decide, by decide, h.1, h.2.1⟩

/-! ## The fetch-and-render flow -/

/-- When the fetch rejects, the handler of `.catch` shows the message of the
rejection. -/
theorem fetchTree_of_rejected (fetch : String → Except JsError Response) (page : Page)
    (encoded : String) (err : JsError)
    (hurl : encodeURIComponent page.repo_url = .ok encoded)
    (hrej : fetch (requestUrl encoded) = .error err) :
    (fetchTree fetch page).page.output = "Error: " ++ err.message
    ∧ (fetchTree fetch page).uncaught = none
    ∧ (fetchTree fetch page).page.log
        = page.log ++ [.setText "Loading...", .request (requestUrl encoded),
            .setText ("Error: " ++ err.message)] := by
  unfold requestUrl at hrej
  simp [fetchTree, hurl, hrej, promiseThen, promiseCatch, setTextContent, logEvent, requestUrl]

/-- When the response is not OK, the first handler throws the fixed error and
nothing else runs before the handler of `.catch`. -/
theorem fetchTree_of_not_ok (fetch : String → Except JsError Response) (page : Page)
    (encoded : String) (res : Response)
    (hurl : encodeURIComponent page.repo_url = .ok encoded)
    (hres : fetch (requestUrl encoded) = .ok res)
    (hok : res.ok = false) :
    (fetchTree fetch page).page.output = "Error: Gagal mengambil data"
    ∧ (fetchTree fetch page).uncaught = none
    ∧ (fetchTree fetch page).page.log
        = page.log ++ [.setText "Loading...", .request (requestUrl encoded),
            .setText "Error: Gagal mengambil data"] := by
  unfold requestUrl at hres
  simp [fetchTree, hurl, hres, hok, promiseThen, promiseCatch, setTextContent, logEvent,
    requestUrl]

/-- When the body of an OK response does not parse, the rejection of
`res.json()` reaches the handler of `.catch`. -/
theorem fetchTree_of_parse_error (fetch : String → Except JsError Response) (page : Page)
    (encoded : String) (res : Response) (err : JsError)
    (hurl : encodeURIComponent page.repo_url = .ok encoded)
    (hres : fetch (requestUrl encoded) = .ok res)
    (hok : res.ok = true) (hjson : res.json = .error err) :
    (fetchTree fetch page).page.output = "Error: " ++ err.message
    ∧ (fetchTree fetch page).uncaught = none
    ∧ (fetchTree fetch page).page.log
        = page.log ++ [.setText "Loading...", .request (requestUrl encoded), .readJson,
            .setText ("Error: " ++ err.message)] := by
  unfold requestUrl at hres
  simp [fetchTree, hurl, hres, hok, hjson, promiseThen, promiseCatch, setTextContent,
    logEvent, requestUrl]

/-- When the renderer throws on the parsed value, the error reaches the handler
of `.catch`. -/
theorem fetchTree_of_render_error (fetch : String → Except JsError Response) (page : Page)
    (encoded : String) (res : Response) (data : JsonData) (err : JsError)
    (hurl : encodeURIComponent page.repo_url = .ok encoded)
    (hres : fetch (requestUrl encoded) = .ok res)
    (hok : res.ok = true) (hjson : res.json = .ok data)
    (hrender : callRenderTree data = .error err) :
    (fetchTree fetch page).page.output = "Error: " ++ err.message
    ∧ (fetchTree fetch page).uncaught = none
    ∧ (fetchTree fetch page).page.log
        = page.log ++ [.setText "Loading...", .request (requestUrl encoded), .readJson,
            .render, .setText ("Error: " ++ err.message)] := by
  unfold requestUrl at hres
  simp [fetchTree, hurl, hres, hok, hjson, hrender, promiseThen, promiseCatch,
    setTextContent, logEvent, requestUrl]

/-- When the renderer returns on the parsed value, its string is shown. -/
theorem fetchTree_of_rendered (fetch : String → Except JsError Response) (page : Page)
    (encoded : String) (res : Response) (data : JsonData) (text : String)
    (hurl : encodeURIComponent page.repo_url = .ok encoded)
    (hres : fetch (requestUrl encoded) = .ok res)
    (hok : res.ok = true) (hjson : res.json = .ok data)
    (hrender : callRenderTree data = .ok text) :
    (fetchTree fetch page).page.output = text
    ∧ (fetchTree fetch page).uncaught = none
    ∧ (fetchTree fetch page).page.log
        = page.log ++ [.setText "Loading...", .request (requestUrl encoded), .readJson,
            .render, .setText text] := by
  unfold requestUrl at hres
  simp [fetchTree, hurl, hres, hok, hjson, hrender, promiseThen, promiseCatch,
    setTextContent, logEvent, requestUrl]

/-- When `encodeURIComponent` throws (an unpaired surrogate in the entered
value), the error leaves `fetchTree` before any request is made, and the output
area keeps the placeholder. -/
theorem fetchTree_of_uri_error (fetch : String → Except JsError Response) (page : Page)
    (err : JsError) (hurl : encodeURIComponent page.repo_url = .error err) :
    (fetchTree fetch page).page.output = "Loading..."
    ∧ (fetchTree fetch page).uncaught = some err
    ∧ (fetchTree fetch page).page.log = page.log ++ [.setText "Loading..."]
    ∧ (fetchTree fetch page).page.shown = page.shown ++ ["Loading..."] := by
  simp [fetchTree, hurl, setTextContent, logEvent]

/-- Once the request is issued, the placeholder and the request are the first
two effects, and the output area holds the placeholder after each of them. -/
theorem fetchTree_of_request (fetch : String → Except JsError Response) (page : Page)
    (encoded : String) (hurl : encodeURIComponent page.repo_url = .ok encoded) :
    ∃ (rest : List Event) (texts : List String),
      (fetchTree fetch page).page.log
        = page.log ++ Event.setText "Loading..." :: Event.request (requestUrl encoded) :: rest
      ∧ (fetchTree fetch page).page.shown
        = page.shown ++ "Loading..." :: "Loading..." :: texts
      ∧ texts.length = rest.length := by
  cases hf : fetch ("/tree?url=" ++ encoded) with
  | error err =>
    refine ⟨[.setText ("Error: " ++ err.message)], ["Error: " ++ err.message], ?_, ?_, rfl⟩ <;>
      simp [fetchTree, hurl, hf, promiseThen, promiseCatch, setTextContent, logEvent,
        requestUrl]
  | ok res =>
    cases hok : res.ok with
    | false =>
      refine ⟨[.setText "Error: Gagal mengambil data"], ["Error: Gagal mengambil data"],
        ?_, ?_, rfl⟩ <;>
        simp [fetchTree, hurl, hf, hok, promiseThen, promiseCatch, setTextContent, logEvent,
          requestUrl]
    | true =>
      cases hj : res.json with
      | error err =>
        refine ⟨[.readJson, .setText ("Error: " ++ err.message)],
          ["Loading...", "Error: " ++ err.message], ?_, ?_, rfl⟩ <;>
          simp [fetchTree, hurl, hf, hok, hj, promiseThen, promiseCatch, setTextContent,
            logEvent, requestUrl]
      | ok data =>
        cases hr : callRenderTree data with
        | error err =>
          refine ⟨[.readJson, .render, .setText ("Error: " ++ err.message)],
            ["Loading...", "Loading...", "Error: " ++ err.message], ?_, ?_, rfl⟩ <;>
            simp [fetchTree, hurl, hf, hok, hj, hr, promiseThen, promiseCatch,
              setTextContent, logEvent, requestUrl]
        | ok text =>
          refine ⟨[.readJson, .render, .setText text], ["Loading...", "Loading...", text],
            ?_, ?_, rfl⟩ <;>
            simp [fetchTree, hurl, hf, hok, hj, hr, promiseThen, promiseCatch,
              setTextContent, logEvent, requestUrl]

/-- A rendered block never reads as an error text: it starts with spaces or an
icon. -/
theorem renderTree_ne_error (t : TreeNode) (d : Nat) (m : String) :
    renderTree t d ≠ "Error: " ++ m := by
  intro h
  obtain ⟨rest, hdata⟩ := renderTree_data_head t d
  have h2 := congrArg String.data h
  rw [hdata, String.data_append] at h2
  cases d with
  | zero =>
    rcases icon_data_cases t with hi | hi <;> rw [hi] at h2 <;> simp at h2
  | succ d =>
    have hd : 2 * (d + 1) = (2 * d + 1) + 1 := by omega
    rw [hd, List.replicate_succ] at h2
    simp at h2

/-- C4: once the request for the entered value is answered by a response whose
`ok` flag is false, whatever its status code and body, `fetchTree` ends with the
text of the output area being exactly `"Error: Gagal mengambil data"`; the
effects of the invocation are the placeholder, the request and the error text,
so the body is not parsed and the renderer is not called. -/
theorem fetchTree_not_ok_fixed_message (fetch : String → Except JsError Response)
    (page : Page) (encoded : String) (res : Response)
    (hurl : encodeURIComponent page.repo_url = .ok encoded)
    (hres : fetch (requestUrl encoded) = .ok res)
    (hok : res.ok = false) :
    (fetchTree fetch page).page.output = "Error: Gagal mengambil data"
    ∧ (fetchTree fetch page).page.log
        = page.log ++ [.setText "Loading...", .request (requestUrl encoded),
            .setText "Error: Gagal mengambil data"]
    ∧ Event.readJson ∉ [Event.setText "Loading...", .request (requestUrl encoded),
        .setText "Error: Gagal mengambil data"]
    ∧ Event.render ∉ [Event.setText "Loading...", .request (requestUrl encoded),
        .setText "Error: Gagal mengambil data"] := by
  obtain ⟨h1, _, h3⟩ := fetchTree_of_not_ok fetch page encoded res hurl hres hok
  exact ⟨h1, h3, by simp, by simp⟩

theorem fetchTree_not_ok_fixed_message_witness :
    encodeURIComponent pageExample.repo_url = .ok "https%3A%2F%2Fgithub.com%2Fa%2Fb"
    ∧ notFound (requestUrl "https%3A%2F%2Fgithub.com%2Fa%2Fb")
        = .ok ⟨false, 404, .error ⟨"Unexpected token < in JSON"⟩⟩
    ∧ (fetchTree notFound pageExample).page.output = "Error: Gagal mengambil data"
    ∧ (fetchTree notFound pageExample).page.log
        = [.setText "Loading...", .request "/tree?url=https%3A%2F%2Fgithub.com%2Fa%2Fb",
            .setText "Error: Gagal mengambil data"] :=
  have h := fetchTree_not_ok_fixed_message notFound pageExample
    "https%3A%2F%2Fgithub.com%2Fa%2Fb" ⟨false, 404, .error ⟨"Unexpected token < in JSON"⟩⟩
    rfl rfl rfl
  ⟨rfl, rfl, h.1, h.2.1⟩

/-- C5, as the code has it: when the fetch itself rejects, with an error whose
message is `m`, `fetchTree` ends with the text of the output area being
`"Error: "` followed by `m`; it is the fixed text shown for a response that is
not OK only when `m` is `"Gagal mengambil data"`. -/
theorem fetchTree_network_failure_shows_message (fetch : String → Except JsError Response)
    (page : Page) (encoded : String) (err : JsError)
    (hurl : encodeURIComponent page.repo_url = .ok encoded)
    (hrej : fetch (requestUrl encoded) = .error err) :
    (fetchTree fetch page).page.output = "Error: " ++ err.message
    ∧ ((fetchTree fetch page).page.output = "Error: Gagal mengambil data"
        ↔ err.message = "Gagal mengambil data") := by
  obtain ⟨h1, _, _⟩ := fetchTree_of_rejected fetch page encoded err hurl hrej
  refine ⟨h1, ?_⟩
  rw [h1]
  constructor
  · intro h
    have h2 := congrArg String.data h
    rw [String.data_append] at h2
    have h3 : ("Error: Gagal mengambil data" : String).data
        = ("Error: " : String).data ++ ("Gagal mengambil data" : String).data := by decide
    rw [h3] at h2
    exact String.ext (List.append_cancel_left h2)
  · intro h
    rw [h]
    decide

theorem fetchTree_network_failure_shows_message_witness :
    encodeURIComponent pageExample.repo_url = .ok "https%3A%2F%2Fgithub.com%2Fa%2Fb"
    ∧ offline (requestUrl "https%3A%2F%2Fgithub.com%2Fa%2Fb") = .error ⟨"Failed to fetch"⟩
    ∧ (fetchTree offline pageExample).page.output = "Error: " ++ "Failed to fetch" :=
  ⟨rfl, rfl, (fetchTree_network_failure_shows_message offline pageExample
    "https%3A%2F%2Fgithub.com%2Fa%2Fb" ⟨"Failed to fetch"⟩ rfl rfl).1⟩

/-- C5 as stated fails: on a network where the fetch rejects with the message
`"Failed to fetch"`, the request is issued, the fetch rejects, and the output
area ends with `"Error: Failed to fetch"`, not `"Error: Gagal mengambil data"`. -/
theorem fetchTree_network_failure_not_fixed_message :
    encodeURIComponent pageExample.repo_url = .ok "https%3A%2F%2Fgithub.com%2Fa%2Fb"
    ∧ offline (requestUrl "https%3A%2F%2Fgithub.com%2Fa%2Fb") = .error ⟨"Failed to fetch"⟩
    ∧ (fetchTree offline pageExample).page.output = "Error: Failed to fetch"
    ∧ (fetchTree offline pageExample).page.output ≠ "Error: Gagal mengambil data" :=
  ⟨rfl, rfl, by decide, by decide⟩

/-- C6: for every failure of the flow with error message `m` (network error,
response that is not OK, JSON parse error, exception raised while rendering
the parsed value), `fetchTree` ends with the text of the output area being
exactly `"Error: "` followed by `m`, whatever the area held before, and no
error escapes the promise chain. -/
theorem fetchTree_failure_shows_error (fetch : String → Except JsError Response)
    (page : Page) (m : String) (hfail : FlowFails fetch page m) :
    (fetchTree fetch page).page.output = "Error: " ++ m
    ∧ (fetchTree fetch page).uncaught = none := by
  cases hfail with
  | network encoded err hurl hrej =>
    obtain ⟨h1, h2, _⟩ := fetchTree_of_rejected fetch page encoded err hurl hrej
    exact ⟨h1, h2⟩
  | status encoded res hurl hres hok =>
    obtain ⟨h1, h2, _⟩ := fetchTree_of_not_ok fetch page encoded res hurl hres hok
    exact ⟨by rw [h1]; decide, h2⟩
  | parse encoded res err hurl hres hok hjson =>
    obtain ⟨h1, h2, _⟩ := fetchTree_of_parse_error fetch page encoded res err hurl hres hok hjson
    exact ⟨h1, h2⟩
  | render encoded res data err hurl hres hok hjson hrender =>
    obtain ⟨h1, h2, _⟩ :=
      fetchTree_of_render_error fetch page encoded res data err hurl hres hok hjson hrender
    exact ⟨h1, h2⟩

theorem fetchTree_failure_shows_error_witness :
    ((fetchTree offline pageExample).page.output = "Error: Failed to fetch"
      ∧ (fetchTree offline pageExample).uncaught = none)
    ∧ ((fetchTree notFound pageExample).page.output = "Error: Gagal mengambil data"
      ∧ (fetchTree notFound pageExample).uncaught = none)
    ∧ ((fetchTree (answering (.error ⟨"Unexpected end of JSON input"⟩)) pageExample).page.output
        = "Error: Unexpected end of JSON input"
      ∧ (fetchTree (answering (.error ⟨"Unexpected end of JSON input"⟩)) pageExample).uncaught
        = none)
    ∧ ((fetchTree (answering (.ok (.other (.error ⟨"node is null"⟩)))) pageExample).page.output
        = "Error: node is null"
      ∧ (fetchTree (answering (.ok (.other (.error ⟨"node is null"⟩)))) pageExample).uncaught
        = none) :=
  ⟨fetchTree_failure_shows_error offline pageExample "Failed to fetch"
      (FlowFails.network "https%3A%2F%2Fgithub.com%2Fa%2Fb" ⟨"Failed to fetch"⟩ rfl rfl),
    fetchTree_failure_shows_error notFound pageExample "Gagal mengambil data"
      (FlowFails.status "https%3A%2F%2Fgithub.com%2Fa%2Fb"
        ⟨false, 404, .error ⟨"Unexpected token < in JSON"⟩⟩ rfl rfl rfl),
    fetchTree_failure_shows_error (answering (.error ⟨"Unexpected end of JSON input"⟩))
      pageExample "Unexpected end of JSON input"
      (FlowFails.parse "https%3A%2F%2Fgithub.com%2Fa%2Fb"
        ⟨true, 200, .error ⟨"Unexpected end of JSON input"⟩⟩ ⟨"Unexpected end of JSON input"⟩
        rfl rfl rfl rfl),
    fetchTree_failure_shows_error (answering (.ok (.other (.error ⟨"node is null"⟩))))
      pageExample "node is null"
      (FlowFails.render "https%3A%2F%2Fgithub.com%2Fa%2Fb"
        ⟨true, 200, .ok (.other (.error ⟨"node is null"⟩))⟩
        (.other (.error ⟨"node is null"⟩)) ⟨"node is null"⟩ rfl rfl rfl rfl rfl)⟩

/-- C7: once the request is answered by an OK response whose body parses to a
tree node T, `fetchTree` ends with the text of the output area being exactly
`renderTree(T, 0)`, which is not an error text; the body is parsed, the
renderer is called, and nothing escapes. -/
theorem fetchTree_ok_shows_rendered_tree (fetch : String → Except JsError Response)
    (page : Page) (encoded : String) (res : Response) (T : TreeNode)
    (hurl : encodeURIComponent page.repo_url = .ok encoded)
    (hres : fetch (requestUrl encoded) = .ok res)
    (hok : res.ok = true) (hjson : res.json = .ok (.tree T)) :
    (fetchTree fetch page).page.output = renderTree T 0
    ∧ (∀ m : String, (fetchTree fetch page).page.output ≠ "Error: " ++ m)
    ∧ (fetchTree fetch page).uncaught = none
    ∧ (fetchTree fetch page).page.log
        = page.log ++ [.setText "Loading...", .request (requestUrl encoded), .readJson,
            .render, .setText (renderTree T 0)] := by
  obtain ⟨h1, h2, h3⟩ :=
    fetchTree_of_rendered fetch page encoded res (.tree T) (renderTree T 0) hurl hres hok hjson rfl
  refine ⟨h1, ?_, h2, h3⟩
  intro m
  rw [h1]
  exact renderTree_ne_error T 0 m

theorem fetchTree_ok_shows_rendered_tree_witness :
    encodeURIComponent pageExample.repo_url = .ok "https%3A%2F%2Fgithub.com%2Fa%2Fb"
    ∧ answering (.ok (.tree rootExample)) (requestUrl "https%3A%2F%2Fgithub.com%2Fa%2Fb")
        = .ok ⟨true, 200, .ok (.tree rootExample)⟩
    ∧ (fetchTree (answering (.ok (.tree rootExample))) pageExample).page.output
        = renderTree rootExample 0
    ∧ renderTree rootExample 0 = "📁 root\n  📄 f\n" :=
  ⟨rfl, rfl, (fetchTree_ok_shows_rendered_tree (answering (.ok (.tree rootExample)))
      pageExample "https%3A%2F%2Fgithub.com%2Fa%2Fb" ⟨true, 200, .ok (.tree rootExample)⟩
      rootExample rfl rfl rfl rfl).1, by decide⟩

/-- C8: for every prior content of the page, every entered value and every
network, the first effect of `fetchTree` is to set the text of the output area
to `"Loading..."`, and the area holds that text right after it; the GET
request, when one is issued, is the effect right after, made while the area
holds `"Loading..."`; when none is issued the placeholder is the only effect
and the area ends holding it; and none of this depends on the network. -/
theorem fetchTree_loading_first (fetch : String → Except JsError Response) (page : Page) :
    (∃ (rest : List Event) (texts : List String),
      (fetchTree fetch page).page.log = page.log ++ Event.setText "Loading..." :: rest
      ∧ (fetchTree fetch page).page.shown = page.shown ++ "Loading..." :: texts
      ∧ texts.length = rest.length)
    ∧ (∀ encoded : String, encodeURIComponent page.repo_url = .ok encoded →
        ∃ (rest : List Event) (texts : List String),
          (fetchTree fetch page).page.log
            = page.log ++ Event.setText "Loading..." :: Event.request (requestUrl encoded) :: rest
          ∧ (fetchTree fetch page).page.shown
            = page.shown ++ "Loading..." :: "Loading..." :: texts
          ∧ texts.length = rest.length)
    ∧ (∀ err : JsError, encodeURIComponent page.repo_url = .error err →
        (fetchTree fetch page).page.log = page.log ++ [Event.setText "Loading..."]
        ∧ (fetchTree fetch page).page.shown = page.shown ++ ["Loading..."]
        ∧ (fetchTree fetch page).page.output = "Loading...") := by
  have hok := fetchTree_of_request fetch page
  have herr : ∀ err : JsError, encodeURIComponent page.repo_url = .error err →
      (fetchTree fetch page).page.log = page.log ++ [Event.setText "Loading..."]
      ∧ (fetchTree fetch page).page.shown = page.shown ++ ["Loading..."]
      ∧ (fetchTree fetch page).page.output = "Loading..." := by
    intro err hurl
    obtain ⟨h1, _, h3, h4⟩ := fetchTree_of_uri_error fetch page err hurl
    exact ⟨h3, h4, h1⟩
  refine ⟨?_, hok, herr⟩
  cases hurl : encodeURIComponent page.repo_url with
  | error err =>
    obtain ⟨h1, h2, _⟩ := herr err hurl
    exact ⟨[], [], h1, h2, rfl⟩
  | ok encoded =>
    obtain ⟨rest, texts, h1, h2, h3⟩ := hok encoded hurl
    refine ⟨_, "Loading..." :: texts, h1, h2, ?_⟩
    simp [h3]

theorem fetchTree_loading_first_witness :
    pageExample.output = "old text"
    ∧ (∃ (rest : List Event) (texts : List String),
      (fetchTree offline pageExample).page.log
        = pageExample.log ++ Event.setText "Loading..." :: rest
      ∧ (fetchTree offline pageExample).page.shown
        = pageExample.shown ++ "Loading..." :: texts
      ∧ texts.length = rest.length)
    ∧ (fetchTree offline pageExample).page.log
        = [.setText "Loading...", .request "/tree?url=https%3A%2F%2Fgithub.com%2Fa%2Fb",
            .setText "Error: Failed to fetch"]
    ∧ (fetchTree offline pageExample).page.shown
        = ["Loading...", "Loading...", "Error: Failed to fetch"] :=
  ⟨by decide, (fetchTree_loading_first offline pageExample).1, by decide, by decide⟩
